import Mathlib

/-!
Shallow embedding of the algorithmic core of the drawing-canvas component
(`src/DrawingCanvas.tsx`): the bounded undo/redo history
(`saveToHistory` / `undo` / `redo`, lines 169-216), the flood-fill engine
(`floodFill` and its helpers `getPixelColor` / `setPixelColor` /
`colorsMatch` / `hexToRgb`, lines 331-417), and the second flood-fill
variant with an explicit iteration cap (lines 1068-1109).

Machine integers are modelled as `Int` (JavaScript numbers used at integer
values) and `Nat` (array lengths, byte values); the pixel byte array
(`Uint8ClampedArray`) is a `List Nat` whose out-of-range reads yield `none`
and whose out-of-range writes are ignored, as in JavaScript; stored bytes
are clamped to 255.
-/

/-! ## Bounded undo/redo history

Embedding of the React state pair `history : DrawingState[]` /
`historyStep : number` and the callbacks `saveToHistory`, `undo`, `redo`
(`src/DrawingCanvas.tsx` lines 169-216).  Snapshots are opaque, so the
state is generic in the snapshot type `S`.  `historyStep` starts at `-1`,
hence is an `Int`. -/

structure HistoryState (S : Type) where
  history : List S
  historyStep : Int
deriving Repr, DecidableEq

/-- The history capacity: `if (newHistory.length > 50)` in `saveToHistory`. -/
def CAPACITY : Nat := 50

/-- `saveToHistory` (lines 169-186): truncate to `history.slice(0, historyStep+1)`,
append the snapshot, then either evict index 0 (`newHistory.shift()`) when the
length exceeds `CAPACITY`, or advance `historyStep` by one. -/
def saveToHistory {S : Type} (st : HistoryState S) (snap : S) : HistoryState S :=
  let newHistory := st.history.take (st.historyStep + 1).toNat ++ [snap]
  if newHistory.length > CAPACITY then
    { history := newHistory.tail, historyStep := st.historyStep }
  else
    { history := newHistory, historyStep := st.historyStep + 1 }

/-- `undo` (lines 191-201): if `historyStep > 0`, decrement the cursor and
restore `history[prevStep]`.  The restored snapshot is returned as the
second component (`putImageData(history[prevStep].imageData, 0, 0)`). -/
def undo {S : Type} (st : HistoryState S) : HistoryState S × Option S :=
  if st.historyStep > 0 then
    let prevStep := st.historyStep - 1
    ({ history := st.history, historyStep := prevStep }, st.history[prevStep.toNat]?)
  else
    (st, none)

/-- `redo` (lines 206-216): if `historyStep < history.length - 1`, increment
the cursor and restore `history[nextStep]`. -/
def redo {S : Type} (st : HistoryState S) : HistoryState S × Option S :=
  if st.historyStep < (st.history.length : Int) - 1 then
    let nextStep := st.historyStep + 1
    ({ history := st.history, historyStep := nextStep }, st.history[nextStep.toNat]?)
  else
    (st, none)

/-- `canUndo`: the undo button is enabled iff `historyStep > 0`
(`disabled={historyStep <= 0}`, line 597). -/
def canUndo {S : Type} (st : HistoryState S) : Bool :=
  st.historyStep > 0

/-- `canRedo`: the redo button is enabled iff `historyStep < history.length - 1`
(`disabled={historyStep >= history.length - 1}`, line 610). -/
def canRedo {S : Type} (st : HistoryState S) : Bool :=
  st.historyStep < (st.history.length : Int) - 1

/-- Well-formedness of a history state, as maintained by the component:
the cursor is at least `-1` (its initial value), strictly below the length,
and the sequence never exceeds the capacity. -/
def HistoryWF {S : Type} (st : HistoryState S) : Prop :=
  -1 ≤ st.historyStep ∧ st.historyStep < (st.history.length : Int) ∧
    st.history.length ≤ CAPACITY

/-- The initial history state: `useState<DrawingState[]>([])` and
`useState(-1)` (line 63). -/
def initHistory (S : Type) : HistoryState S :=
  { history := [], historyStep := -1 }

/-- Folding a list of snapshots into the history by successive pushes. -/
def pushAll {S : Type} (st : HistoryState S) (snaps : List S) : HistoryState S :=
  snaps.foldl saveToHistory st

/-! ## Pixels and colors

Embedding of the pixel-buffer helpers (`src/DrawingCanvas.tsx` lines
372-417).  The `Uint8ClampedArray` of `ImageData` is a `List Nat`: reading
at a canonical numeric index outside `[0, length)` yields `undefined`
(here `none`), writing outside that range is silently ignored, and stored
values are clamped to `0..255`. -/

/-- A coordinate, the source's `Point` interface (`{ x: number; y: number }`). -/
structure Point where
  x : Int
  y : Int
deriving DecidableEq, Repr

/-- A fully-specified RGBA color, as produced by `hexToRgb`. -/
structure Color where
  r : Nat
  g : Nat
  b : Nat
  a : Nat
deriving DecidableEq, Repr

/-- The value of `getPixelColor`: each channel is a byte read from the
array, hence possibly `undefined` (`none`) when the index is out of range. -/
structure OColor where
  r : Option Nat
  g : Option Nat
  b : Option Nat
  a : Option Nat
deriving DecidableEq, Repr

/-- Read one byte: `pixels[i]` on a `Uint8ClampedArray` is `undefined`
exactly when `i` is outside `[0, length)`. -/
def byteGet (pixels : List Nat) (i : Int) : Option Nat :=
  if 0 ≤ i then pixels[i.toNat]? else none

/-- Write one byte: `pixels[i] = v` on a `Uint8ClampedArray` clamps `v`
to `0..255` and is silently ignored when `i` is outside `[0, length)`. -/
def byteSet (pixels : List Nat) (i : Int) (v : Nat) : List Nat :=
  if 0 ≤ i then pixels.set i.toNat (min v 255) else pixels

/-- `getPixelColor` (lines 372-380): read the four channels at
`index = (y * width + x) * 4`. -/
def getPixelColor (pixels : List Nat) (x y width : Int) : OColor :=
  let index := (y * width + x) * 4
  { r := byteGet pixels index
    g := byteGet pixels (index + 1)
    b := byteGet pixels (index + 2)
    a := byteGet pixels (index + 3) }

/-- `setPixelColor` (lines 385-397): write the four channels at
`index = (y * width + x) * 4`. -/
def setPixelColor (pixels : List Nat) (x y width : Int) (color : Color) : List Nat :=
  let index := (y * width + x) * 4
  byteSet (byteSet (byteSet (byteSet pixels index color.r)
    (index + 1) color.g) (index + 2) color.b) (index + 3) color.a

/-- `colorsMatch` (lines 402-404): exact per-channel equality, alpha
included.  In the source both arguments are whatever `getPixelColor` or
`hexToRgb` produced; `undefined === n` is false for every number `n`,
which `Option` equality models. -/
def colorsMatch (c1 c2 : OColor) : Bool :=
  c1.r == c2.r && c1.g == c2.g && c1.b == c2.b && c1.a == c2.a

/-- Injection of a fully-specified color into the channel-wise optional
form, for comparing `hexToRgb` output against `getPixelColor` output. -/
def toOColor (c : Color) : OColor :=
  { r := some c.r, g := some c.g, b := some c.b, a := some c.a }

/-- A character matched by the `[a-f\d]` class of the `hexToRgb` regex
(case-insensitive flag `i`, so `A-F` as well). -/
def isHexDigit (c : Char) : Bool :=
  decide ((48 ≤ c.toNat ∧ c.toNat ≤ 57) ∨ (97 ≤ c.toNat ∧ c.toNat ≤ 102) ∨
    (65 ≤ c.toNat ∧ c.toNat ≤ 70))

/-- Numeric value of a hex digit, as computed by `parseInt(_, 16)`. -/
def hexDigitVal (c : Char) : Nat :=
  if 48 ≤ c.toNat ∧ c.toNat ≤ 57 then c.toNat - 48
  else if 97 ≤ c.toNat ∧ c.toNat ≤ 102 then c.toNat - 97 + 10
  else if 65 ≤ c.toNat ∧ c.toNat ≤ 70 then c.toNat - 65 + 10
  else 0

/-- The match `/^#?([a-f\d]{2})([a-f\d]{2})([a-f\d]{2})$/i.exec(hex)`
(line 410): an optional leading `#` (character 35) followed by exactly six
hex digits; on success the three captured byte values. -/
def hexExec (hex : String) : Option (Nat × Nat × Nat) :=
  let cs := hex.toList
  let ds := if cs.head? == some (Char.ofNat 35) then cs.tail else cs
  match ds with
  | [d1, d2, d3, d4, d5, d6] =>
    if isHexDigit d1 && isHexDigit d2 && isHexDigit d3 && isHexDigit d4 &&
        isHexDigit d5 && isHexDigit d6 then
      some (16 * hexDigitVal d1 + hexDigitVal d2,
            16 * hexDigitVal d3 + hexDigitVal d4,
            16 * hexDigitVal d5 + hexDigitVal d6)
    else none
  | _ => none

/-- `hexToRgb` (lines 409-417): parse the hex string; on failure fall back
silently to opaque black `{ r: 0, g: 0, b: 0, a: 255 }`. -/
def hexToRgb (hex : String) : Color :=
  match hexExec hex with
  | some (r, g, b) => { r := r, g := g, b := b, a := 255 }
  | none => { r := 0, g := 0, b := 0, a := 255 }

/-! ## Flood fill

Embedding of `floodFill` (`src/DrawingCanvas.tsx` lines 331-367).  The
source's `while` loop is modelled by recursion on an explicit budget of
`4 * width * height + 1`, which `floodFillLoop_measure_le` below proves is
an upper bound on the number of iterations the unbounded source loop
performs, so the budget never runs out.  The `visited` set of string keys
`` `${x},${y}` `` is a `Finset Point` (the key encoding is injective).
JavaScript `push`/`pop` act on the array tail, so the head of the Lean
stack list is the source array's tail: the last-pushed neighbour
`(x, y-1)` is popped first. -/

/-- A coordinate lies inside the canvas: the negation of the loop's skip
test `x < 0 || x >= canvas.width || y < 0 || y >= canvas.height`. -/
def inBounds (width height : Nat) (p : Point) : Prop :=
  0 ≤ p.x ∧ p.x < (width : Int) ∧ 0 ≤ p.y ∧ p.y < (height : Int)

instance inBounds.decide (width height : Nat) (p : Point) :
    Decidable (inBounds width height p) := by
  unfold inBounds
  infer_instance

/-- The four axis neighbours pushed for a processed pixel, in source
order `(x+1,y), (x-1,y), (x,y+1), (x,y-1)`. -/
def nbrs (p : Point) : List Point :=
  [⟨p.x + 1, p.y⟩, ⟨p.x - 1, p.y⟩, ⟨p.x, p.y + 1⟩, ⟨p.x, p.y - 1⟩]

/-- Result of the traversal loop: the mutated byte array, the visited set,
and the coordinates passed to `setPixelColor`, in order. -/
structure LoopResult where
  pixels : List Nat
  visited : Finset Point
  writes : List Point
deriving DecidableEq

/-- The `while (stack.length > 0)` loop of `floodFill` (lines 346-363):
pop a coordinate; skip it if already visited, out of bounds, or not
matching `targetColor`; otherwise recolor it, mark it visited and push its
four axis neighbours. -/
def floodFillLoop (width height : Nat) (targetColor : OColor) (fillColor : Color)
    (fuel : Nat) (pixels : List Nat) (visited : Finset Point) (stack : List Point)
    (writes : List Point) : LoopResult :=
  match stack with
  | [] => ⟨pixels, visited, writes⟩
  | p :: rest =>
    match fuel with
    | 0 => ⟨pixels, visited, writes⟩
    | fuel + 1 =>
      if p ∈ visited then
        floodFillLoop width height targetColor fillColor fuel pixels visited rest writes
      else if p.x < 0 ∨ p.x ≥ (width : Int) ∨ p.y < 0 ∨ p.y ≥ (height : Int) then
        floodFillLoop width height targetColor fillColor fuel pixels visited rest writes
      else if colorsMatch (getPixelColor pixels p.x p.y (width : Int)) targetColor
          = false then
        floodFillLoop width height targetColor fillColor fuel pixels visited rest writes
      else
        floodFillLoop width height targetColor fillColor fuel
          (setPixelColor pixels p.x p.y (width : Int) fillColor)
          (insert p visited)
          (⟨p.x, p.y - 1⟩ :: ⟨p.x, p.y + 1⟩ :: ⟨p.x - 1, p.y⟩ :: ⟨p.x + 1, p.y⟩ :: rest)
          (writes ++ [p])

/-- Result of a fill call.  The source returns nothing; `writes` records
the coordinates passed to `setPixelColor` in order (the spec's
`FillResult.pixelsChanged` is `writes.length`), and `savedToHistory`
records whether the function reached its tail
(`ctx.putImageData(...)` followed by `saveToHistory()`), which is skipped
only by the Step-1 short-circuit. -/
structure FillResult where
  pixels : List Nat
  writes : List Point
  savedToHistory : Bool
deriving DecidableEq

/-- `floodFill` (lines 331-367).  The source computes
`fillColor = hexToRgb(color)` from the component-local hex colour; it is
an explicit parameter here.  `targetColor` is read at the seed before any
bounds check. -/
def floodFill (width height : Nat) (pixels : List Nat) (startX startY : Int)
    (fillColor : Color) : FillResult :=
  let targetColor := getPixelColor pixels startX startY (width : Int)
  if colorsMatch targetColor (toOColor fillColor) then
    ⟨pixels, [], false⟩
  else
    let out := floodFillLoop width height targetColor fillColor
      (4 * (width * height) + 1) pixels ∅ [⟨startX, startY⟩] []
    ⟨out.pixels, out.writes, true⟩

/-- The 4-connected region of the seed: coordinates reachable from `seed`
through in-bounds pixels whose color in the buffer `orig` matches `t`
(the claim's "original color equals `B[s]`" with `t` instantiated to the
color read at the seed). -/
inductive Reach (width height : Nat) (orig : List Nat) (t : OColor) (seed : Point) :
    Point → Prop
  | base : inBounds width height seed →
      colorsMatch (getPixelColor orig seed.x seed.y (width : Int)) t = true →
      Reach width height orig t seed seed
  | step {p q : Point} : Reach width height orig t seed p → q ∈ nbrs p →
      inBounds width height q →
      colorsMatch (getPixelColor orig q.x q.y (width : Int)) t = true →
      Reach width height orig t seed q

/-- The color actually stored by the four `Uint8ClampedArray` writes of
`setPixelColor`: each channel clamped to `0..255`. -/
def clampColor (c : Color) : Color :=
  { r := min c.r 255, g := min c.g 255, b := min c.b 255, a := min c.a 255 }

/-- The finite set of in-bounds coordinates of the canvas. -/
def inBoundsFinset (width height : Nat) : Finset Point :=
  ((Finset.Icc (0 : Int) ((width : Int) - 1)) ×ˢ
    (Finset.Icc (0 : Int) ((height : Int) - 1))).image (fun q => ⟨q.1, q.2⟩)

/-- Number of in-bounds, unvisited coordinates whose current color matches
the target.  `4 * matchCnt + stack.length` is the termination measure of
the traversal: a skipped pop shrinks the stack, and a processed pop trades
one matching coordinate (recolored and marked visited) for a net three
stack entries. -/
def matchCnt (width height : Nat) (t : OColor) (pixels : List Nat)
    (visited : Finset Point) : Nat :=
  ((inBoundsFinset width height).filter
    (fun p => p ∉ visited ∧
      colorsMatch (getPixelColor pixels p.x p.y (width : Int)) t = true)).card

/-- Invariant of the `floodFill` traversal, relating the current loop state
to the original buffer `orig`, the target color `t` and the `seed`:
visited coordinates are exactly the recolored ones, all lie in the seed's
region, neighbours of visited coordinates that continue the region are
still visited-or-pending, and pending stack entries are the seed or
neighbours of visited coordinates. -/
structure FillInv (width height : Nat) (orig : List Nat) (t : OColor) (seed : Point)
    (fill : Color) (pixels : List Nat) (visited : Finset Point)
    (stack : List Point) : Prop where
  hlen : pixels.length = orig.length
  hvisR : ∀ p ∈ visited, Reach width height orig t seed p
  hvisB : ∀ p ∈ visited, inBounds width height p
  hpix : ∀ p : Point, inBounds width height p →
    getPixelColor pixels p.x p.y (width : Int) =
      (if p ∈ visited then toOColor (clampColor fill)
       else getPixelColor orig p.x p.y (width : Int))
  hseed : seed ∈ visited ∨ seed ∈ stack
  hclosed : ∀ v ∈ visited, ∀ q ∈ nbrs v, inBounds width height q →
    colorsMatch (getPixelColor orig q.x q.y (width : Int)) t = true →
    q ∈ visited ∨ q ∈ stack
  hstack : ∀ p ∈ stack, p = seed ∨ ∃ v ∈ visited, p ∈ nbrs v

/-! ## Second flood-fill variant with iteration cap

Embedding of the second `floodFill` (lines 1068-1109).  There the
component props `width`/`height` are CSS pixels and the canvas backing
store is `width * dpr` by `height * dpr` device pixels
(`canvas.width = width * dpr`, line 780), so the cap
`maxIterations = width * height * dpr * dpr` (line 1083) is exactly the
number of distinct valid buffer coordinates.  The loop condition
`stack.length > 0 && iterations < maxIterations` makes the remaining
budget `maxIterations - iterations` a structurally decreasing recursion
measure; the returned `iterations` counts executed loop bodies. -/

/-- One run of the capped loop: returns the byte array and the number of
iterations executed. -/
def floodFill2Loop (width height dpr : Nat) (targetColor : OColor) (fillColor : Color)
    (remaining : Nat) (iterations : Nat) (pixels : List Nat) (visited : Finset Point)
    (stack : List Point) : List Nat × Nat :=
  match stack with
  | [] => (pixels, iterations)
  | p :: rest =>
    match remaining with
    | 0 => (pixels, iterations)
    | remaining + 1 =>
      if p ∈ visited then
        floodFill2Loop width height dpr targetColor fillColor remaining
          (iterations + 1) pixels visited rest
      else if p.x < 0 ∨ p.x ≥ ((width * dpr : Nat) : Int) ∨ p.y < 0 ∨
          p.y ≥ ((height * dpr : Nat) : Int) then
        floodFill2Loop width height dpr targetColor fillColor remaining
          (iterations + 1) pixels visited rest
      else if colorsMatch
          (getPixelColor pixels p.x p.y ((width * dpr : Nat) : Int)) targetColor
          = false then
        floodFill2Loop width height dpr targetColor fillColor remaining
          (iterations + 1) pixels visited rest
      else
        floodFill2Loop width height dpr targetColor fillColor remaining
          (iterations + 1)
          (setPixelColor pixels p.x p.y ((width * dpr : Nat) : Int) fillColor)
          (insert p visited)
          (⟨p.x, p.y - 1⟩ :: ⟨p.x, p.y + 1⟩ :: ⟨p.x - 1, p.y⟩ :: ⟨p.x + 1, p.y⟩ :: rest)

/-- The second `floodFill` variant (lines 1068-1109): identical traversal,
but the loop additionally stops once `iterations` reaches
`maxIterations = width * height * dpr * dpr`.  Returns the byte array and
the number of loop iterations executed.  (`Math.floor` on the seed is the
identity here since coordinates are already integers.) -/
def floodFill2 (width height dpr : Nat) (pixels : List Nat) (startX startY : Int)
    (fillColor : Color) : List Nat × Nat :=
  let targetColor := getPixelColor pixels startX startY ((width * dpr : Nat) : Int)
  if colorsMatch targetColor (toOColor fillColor) then
    (pixels, 0)
  else
    let maxIterations := width * height * dpr * dpr
    floodFill2Loop width height dpr targetColor fillColor maxIterations 0 pixels ∅
      [⟨startX, startY⟩]

/-! ## History lemmas -/

lemma saveToHistory_of_evict {S : Type} (st : HistoryState S) (snap : S)
    (h : CAPACITY < (st.history.take (st.historyStep + 1).toNat ++ [snap]).length) :
    saveToHistory st snap =
      { history := (st.history.take (st.historyStep + 1).toNat ++ [snap]).tail,
        historyStep := st.historyStep } := by
  simp only [saveToHistory]
  rw [if_pos h]

lemma saveToHistory_of_no_evict {S : Type} (st : HistoryState S) (snap : S)
    (h : (st.history.take (st.historyStep + 1).toNat ++ [snap]).length ≤ CAPACITY) :
    saveToHistory st snap =
      { history := st.history.take (st.historyStep + 1).toNat ++ [snap],
        historyStep := st.historyStep + 1 } := by
  simp only [saveToHistory]
  rw [if_neg (by omega)]

lemma saveToHistory_min {S : Type} (st : HistoryState S) (snap : S)
    (hstep : st.historyStep = (st.history.length : Int) - 1)
    (hlen : st.history.length ≤ CAPACITY) :
    (saveToHistory st snap).history.length = min (st.history.length + 1) CAPACITY ∧
    (saveToHistory st snap).historyStep =
      ((saveToHistory st snap).history.length : Int) - 1 ∧
    (saveToHistory st snap).history.length ≤ CAPACITY := by
  have hcap : CAPACITY = 50 := rfl
  have hn : (st.historyStep + 1).toNat = st.history.length := by omega
  have htake : st.history.take (st.historyStep + 1).toNat = st.history := by
    rw [hn]
    exact List.take_of_length_le (Nat.le_refl _)
  have hlen1 : (st.history.take (st.historyStep + 1).toNat ++ [snap]).length =
      st.history.length + 1 := by
    rw [htake]
    simp
  by_cases hev : CAPACITY < (st.history.take (st.historyStep + 1).toNat ++ [snap]).length
  · rw [saveToHistory_of_evict st snap hev]
    have hL : st.history.length = 50 := by omega
    have htl : ((st.history.take (st.historyStep + 1).toNat ++ [snap]).tail).length =
        st.history.length := by
      rw [List.length_tail, hlen1]
      omega
    refine ⟨?_, ?_, ?_⟩ <;> simp [htl, hL] <;> omega
  · rw [saveToHistory_of_no_evict st snap (by omega)]
    refine ⟨?_, ?_, ?_⟩ <;> simp [hlen1] <;> omega

lemma pushAll_min {S : Type} (snaps : List S) : ∀ (st : HistoryState S),
    st.historyStep = (st.history.length : Int) - 1 → st.history.length ≤ CAPACITY →
    (pushAll st snaps).history.length = min (st.history.length + snaps.length) CAPACITY ∧
    (pushAll st snaps).historyStep =
      ((pushAll st snaps).history.length : Int) - 1 ∧
    (pushAll st snaps).history.length ≤ CAPACITY := by
  induction snaps with
  | nil =>
    intro st h1 h2
    have hid : pushAll st [] = st := rfl
    rw [hid]
    simp only [List.length_nil, Nat.add_zero]
    refine ⟨?_, h1, h2⟩
    omega
  | cons s rest ih =>
    intro st h1 h2
    have hpush := saveToHistory_min st s h1 h2
    have hrec := ih (saveToHistory st s) hpush.2.1 hpush.2.2
    have hfold : pushAll st (s :: rest) = pushAll (saveToHistory st s) rest := by
      simp [pushAll]
    rw [hfold]
    refine ⟨?_, hrec.2.1, hrec.2.2⟩
    rw [hrec.1, hpush.1]
    simp
    omega

/-! ## Claim theorems: history -/

/-- C3 (counterexample): on a full 50-entry history with the cursor at the
tail, pushing a 51st snapshot evicts index 0 without advancing the cursor,
yet — because eviction shifts every remaining entry down one index — the
unchanged cursor value 49 lands exactly on the tail and references the
just-pushed snapshot, contradicting the claim that after an evicting push
the cursor is one short of the tail and does not reference it. -/
theorem saveToHistory_evict_cex :
    CAPACITY <
      ((⟨List.range 50, 49⟩ : HistoryState Nat).history.take
        ((⟨List.range 50, 49⟩ : HistoryState Nat).historyStep + 1).toNat
          ++ [999]).length ∧
    (saveToHistory (⟨List.range 50, 49⟩ : HistoryState Nat) 999).history[
      (saveToHistory (⟨List.range 50, 49⟩ : HistoryState Nat) 999).historyStep.toNat]?
        = some 999 ∧
    (saveToHistory (⟨List.range 50, 49⟩ : HistoryState Nat) 999).historyStep =
      ((saveToHistory (⟨List.range 50, 49⟩ : HistoryState Nat) 999).history.length : Int)
        - 1 := by
  refine ⟨by decide, by decide, by decide⟩

/-- C3 (amended): for every well-formed history state and pushed snapshot,
the cursor ends referencing the just-pushed snapshot and sits at the tail;
an evicting push (truncated sequence plus the new snapshot exceeding
`CAPACITY`) leaves the numeric cursor unchanged, while a non-evicting push
advances it by one. -/
theorem saveToHistory_cursor {S : Type} (st : HistoryState S) (snap : S)
    (hwf : HistoryWF st) :
    (saveToHistory st snap).history[(saveToHistory st snap).historyStep.toNat]?
        = some snap ∧
    (saveToHistory st snap).historyStep =
      ((saveToHistory st snap).history.length : Int) - 1 ∧
    (CAPACITY < (st.history.take (st.historyStep + 1).toNat ++ [snap]).length →
      (saveToHistory st snap).historyStep = st.historyStep) ∧
    ((st.history.take (st.historyStep + 1).toNat ++ [snap]).length ≤ CAPACITY →
      (saveToHistory st snap).historyStep = st.historyStep + 1) := by
  obtain ⟨h1, h2, h3⟩ := hwf
  have hcap : CAPACITY = 50 := rfl
  have hnle : (st.historyStep + 1).toNat ≤ st.history.length := by omega
  have hlt : (st.history.take (st.historyStep + 1).toNat).length =
      (st.historyStep + 1).toNat := by
    rw [List.length_take]
    omega
  have hlen1 : (st.history.take (st.historyStep + 1).toNat ++ [snap]).length =
      (st.historyStep + 1).toNat + 1 := by
    simp [hlt]
  by_cases hev : CAPACITY < (st.history.take (st.historyStep + 1).toNat ++ [snap]).length
  · have hn50 : (st.historyStep + 1).toNat = 50 := by omega
    have hL50 : st.history.length = 50 := by omega
    have hstep : st.historyStep = 49 := by omega
    have htake : st.history.take (st.historyStep + 1).toNat = st.history := by
      rw [hn50]
      exact List.take_of_length_le (by omega)
    have htail : (st.history ++ [snap]).tail = st.history.tail ++ [snap] := by
      cases hh : st.history with
      | nil =>
        rw [hh] at hL50
        simp at hL50
      | cons x xs => simp
    have htlen : st.history.tail.length = 49 := by
      rw [List.length_tail, hL50]
    rw [saveToHistory_of_evict st snap hev]
    refine ⟨?_, ?_, fun _ => rfl, fun hc => absurd hc (by omega)⟩
    · show (st.history.take (st.historyStep + 1).toNat ++ [snap]).tail[
        st.historyStep.toNat]? = some snap
      rw [htake, htail, hstep]
      have : ((49 : Int)).toNat = st.history.tail.length := by
        rw [htlen]
        rfl
      rw [this]
      exact List.getElem?_concat_length _ _
    · show st.historyStep =
        ((st.history.take (st.historyStep + 1).toNat ++ [snap]).tail.length : Int) - 1
      rw [htake, htail]
      simp [htlen, hstep]
  · rw [saveToHistory_of_no_evict st snap (by omega)]
    refine ⟨?_, ?_, fun hc => absurd hc hev, fun _ => rfl⟩
    · show (st.history.take (st.historyStep + 1).toNat ++ [snap])[
        (st.historyStep + 1).toNat]? = some snap
      have hcc := List.getElem?_concat_length
        (st.history.take (st.historyStep + 1).toNat) snap
      rwa [hlt] at hcc
    · show st.historyStep + 1 =
        ((st.history.take (st.historyStep + 1).toNat ++ [snap]).length : Int) - 1
      rw [hlen1]
      omega

/-- C3 (witness): the amended theorem applied to the singleton history
`[5]` with cursor `0`, pushing `7`. -/
theorem saveToHistory_cursor_witness :
    HistoryWF (⟨[5], 0⟩ : HistoryState Nat) ∧
    ((saveToHistory (⟨[5], 0⟩ : HistoryState Nat) 7).history[
      (saveToHistory (⟨[5], 0⟩ : HistoryState Nat) 7).historyStep.toNat]? = some 7 ∧
    (saveToHistory (⟨[5], 0⟩ : HistoryState Nat) 7).historyStep =
      ((saveToHistory (⟨[5], 0⟩ : HistoryState Nat) 7).history.length : Int) - 1 ∧
    (CAPACITY < ((⟨[5], 0⟩ : HistoryState Nat).history.take
        (((⟨[5], 0⟩ : HistoryState Nat).historyStep) + 1).toNat ++ [7]).length →
      (saveToHistory (⟨[5], 0⟩ : HistoryState Nat) 7).historyStep =
        (⟨[5], 0⟩ : HistoryState Nat).historyStep) ∧
    (((⟨[5], 0⟩ : HistoryState Nat).history.take
        (((⟨[5], 0⟩ : HistoryState Nat).historyStep) + 1).toNat ++ [7]).length ≤ CAPACITY →
      (saveToHistory (⟨[5], 0⟩ : HistoryState Nat) 7).historyStep =
        (⟨[5], 0⟩ : HistoryState Nat).historyStep + 1)) :=
  ⟨by constructor <;> simp [CAPACITY],
    saveToHistory_cursor (⟨[5], 0⟩ : HistoryState Nat) 7
      (by constructor <;> simp [CAPACITY])⟩

/-- C4: pushing any sequence of snapshots into the initially empty history
keeps the length at most `CAPACITY` (50), and once at least `CAPACITY`
snapshots have been pushed the length equals `CAPACITY` exactly; since the
length after `k` pushes is `min k CAPACITY`, both facts hold after every
intermediate push as well (instantiate `snaps` with any prefix). -/
theorem pushAll_capacity (snaps : List Nat) :
    (pushAll (initHistory Nat) snaps).history.length ≤ CAPACITY ∧
    (CAPACITY ≤ snaps.length →
      (pushAll (initHistory Nat) snaps).history.length = CAPACITY) := by
  have h := pushAll_min snaps (initHistory Nat) (by simp [initHistory])
    (by simp [initHistory])
  simp only [initHistory, List.length_nil, Nat.zero_add] at h
  obtain ⟨ha, hb, hc2⟩ := h
  refine ⟨hc2, fun hge => ?_⟩
  show (pushAll { history := [], historyStep := -1 } snaps).history.length = CAPACITY
  rw [ha, min_eq_right hge]

/-- C4 (witness): 51 pushes into the empty history leave exactly 50 entries. -/
theorem pushAll_capacity_witness :
    CAPACITY ≤ (List.range 51).length ∧
    (pushAll (initHistory Nat) (List.range 51)).history.length = CAPACITY :=
  ⟨by decide, (pushAll_capacity (List.range 51)).2 (by decide)⟩

/-- C6: from any well-formed state whose cursor is strictly before the tail
(one or more undos), a push truncates the sequence to indices
`0 .. cursor` inclusive, appends the new snapshot, advances the cursor,
and leaves `canRedo` false. -/
theorem saveToHistory_discards_redo {S : Type} (st : HistoryState S) (snap : S)
    (hwf : HistoryWF st) (hmid : st.historyStep < (st.history.length : Int) - 1) :
    saveToHistory st snap =
      { history := st.history.take (st.historyStep + 1).toNat ++ [snap],
        historyStep := st.historyStep + 1 } ∧
    canRedo (saveToHistory st snap) = false := by
  obtain ⟨h1, h2, h3⟩ := hwf
  have hcap : CAPACITY = 50 := rfl
  have hnle : (st.historyStep + 1).toNat ≤ st.history.length - 1 := by omega
  have hlt : (st.history.take (st.historyStep + 1).toNat).length =
      (st.historyStep + 1).toNat := by
    rw [List.length_take]
    omega
  have hlen1 : (st.history.take (st.historyStep + 1).toNat ++ [snap]).length =
      (st.historyStep + 1).toNat + 1 := by
    simp [hlt]
  have heq := saveToHistory_of_no_evict st snap (by omega)
  refine ⟨heq, ?_⟩
  rw [heq]
  simp only [canRedo, hlen1]
  simp only [decide_eq_false_iff_not, not_lt]
  omega

/-- C6 (witness): state `[10, 20, 30]` with cursor `0` (two undos back);
pushing `40` yields `[10, 40]` with cursor `1` and `canRedo` false. -/
theorem saveToHistory_discards_redo_witness :
    (HistoryWF (⟨[10, 20, 30], 0⟩ : HistoryState Nat) ∧
      (⟨[10, 20, 30], 0⟩ : HistoryState Nat).historyStep <
        ((⟨[10, 20, 30], 0⟩ : HistoryState Nat).history.length : Int) - 1) ∧
    (saveToHistory (⟨[10, 20, 30], 0⟩ : HistoryState Nat) 40 =
      { history := (⟨[10, 20, 30], 0⟩ : HistoryState Nat).history.take
          ((⟨[10, 20, 30], 0⟩ : HistoryState Nat).historyStep + 1).toNat ++ [40],
        historyStep := (⟨[10, 20, 30], 0⟩ : HistoryState Nat).historyStep + 1 } ∧
      canRedo (saveToHistory (⟨[10, 20, 30], 0⟩ : HistoryState Nat) 40) = false) :=
  ⟨⟨by refine ⟨by decide, by decide, by decide⟩, by decide⟩,
    saveToHistory_discards_redo (⟨[10, 20, 30], 0⟩ : HistoryState Nat) 40
      ⟨by decide, by decide, by decide⟩ (by decide)⟩

/-- C7: whenever `undo` succeeds (`cursor > 0`, cursor within bounds), an
immediately following `redo` restores the cursor to its pre-undo value,
returns exactly the snapshot the cursor referenced before the undo, and
leaves the sequence itself untouched. -/
theorem undo_redo_roundtrip {S : Type} (st : HistoryState S)
    (h0 : 0 < st.historyStep) (hlen : st.historyStep < (st.history.length : Int)) :
    (redo (undo st).1).1.historyStep = st.historyStep ∧
    (redo (undo st).1).2 = st.history[st.historyStep.toNat]? ∧
    (redo (undo st).1).1.history = st.history := by
  have hu : (undo st).1 = ⟨st.history, st.historyStep - 1⟩ := by
    simp only [undo]
    rw [if_pos h0]
  rw [hu]
  have hr : st.historyStep - 1 < (st.history.length : Int) - 1 := by omega
  simp only [redo]
  rw [if_pos hr]
  have h11 : st.historyStep - 1 + 1 = st.historyStep := by omega
  refine ⟨?_, ?_, rfl⟩
  · show st.historyStep - 1 + 1 = st.historyStep
    omega
  · show st.history[(st.historyStep - 1 + 1).toNat]? = st.history[st.historyStep.toNat]?
    rw [h11]

/-- C7 (witness): the roundtrip applied to history `[3, 4, 5]` with
cursor `2`. -/
theorem undo_redo_roundtrip_witness :
    (0 < (⟨[3, 4, 5], 2⟩ : HistoryState Nat).historyStep ∧
      (⟨[3, 4, 5], 2⟩ : HistoryState Nat).historyStep <
        ((⟨[3, 4, 5], 2⟩ : HistoryState Nat).history.length : Int)) ∧
    ((redo (undo (⟨[3, 4, 5], 2⟩ : HistoryState Nat)).1).1.historyStep =
        (⟨[3, 4, 5], 2⟩ : HistoryState Nat).historyStep ∧
      (redo (undo (⟨[3, 4, 5], 2⟩ : HistoryState Nat)).1).2 =
        (⟨[3, 4, 5], 2⟩ : HistoryState Nat).history[
          (⟨[3, 4, 5], 2⟩ : HistoryState Nat).historyStep.toNat]? ∧
      (redo (undo (⟨[3, 4, 5], 2⟩ : HistoryState Nat)).1).1.history =
        (⟨[3, 4, 5], 2⟩ : HistoryState Nat).history) :=
  ⟨⟨by decide, by decide⟩,
    undo_redo_roundtrip (⟨[3, 4, 5], 2⟩ : HistoryState Nat) (by decide) (by decide)⟩

/-! ## Flood-fill loop unfolding lemmas -/

lemma floodFillLoop_nil (width height : Nat) (t : OColor) (c : Color) (fuel : Nat)
    (pixels : List Nat) (visited : Finset Point) (writes : List Point) :
    floodFillLoop width height t c fuel pixels visited [] writes =
      ⟨pixels, visited, writes⟩ := by
  cases fuel <;> rfl

lemma floodFillLoop_visited (width height : Nat) (t : OColor) (c : Color) (fuel : Nat)
    (pixels : List Nat) (visited : Finset Point) (p : Point) (rest : List Point)
    (writes : List Point) (h : p ∈ visited) :
    floodFillLoop width height t c (fuel + 1) pixels visited (p :: rest) writes =
      floodFillLoop width height t c fuel pixels visited rest writes := by
  simp [floodFillLoop, h]

lemma floodFillLoop_oob (width height : Nat) (t : OColor) (c : Color) (fuel : Nat)
    (pixels : List Nat) (visited : Finset Point) (p : Point) (rest : List Point)
    (writes : List Point) (h : p ∉ visited)
    (hb : p.x < 0 ∨ p.x ≥ (width : Int) ∨ p.y < 0 ∨ p.y ≥ (height : Int)) :
    floodFillLoop width height t c (fuel + 1) pixels visited (p :: rest) writes =
      floodFillLoop width height t c fuel pixels visited rest writes := by
  simp [floodFillLoop, h, hb]

lemma floodFillLoop_nomatch (width height : Nat) (t : OColor) (c : Color) (fuel : Nat)
    (pixels : List Nat) (visited : Finset Point) (p : Point) (rest : List Point)
    (writes : List Point) (h : p ∉ visited)
    (hb : ¬ (p.x < 0 ∨ p.x ≥ (width : Int) ∨ p.y < 0 ∨ p.y ≥ (height : Int)))
    (hm : colorsMatch (getPixelColor pixels p.x p.y (width : Int)) t = false) :
    floodFillLoop width height t c (fuel + 1) pixels visited (p :: rest) writes =
      floodFillLoop width height t c fuel pixels visited rest writes := by
  simp [floodFillLoop, h, hb, hm]

lemma floodFillLoop_proc (width height : Nat) (t : OColor) (c : Color) (fuel : Nat)
    (pixels : List Nat) (visited : Finset Point) (p : Point) (rest : List Point)
    (writes : List Point) (h : p ∉ visited)
    (hb : ¬ (p.x < 0 ∨ p.x ≥ (width : Int) ∨ p.y < 0 ∨ p.y ≥ (height : Int)))
    (hm : colorsMatch (getPixelColor pixels p.x p.y (width : Int)) t = true) :
    floodFillLoop width height t c (fuel + 1) pixels visited (p :: rest) writes =
      floodFillLoop width height t c fuel
        (setPixelColor pixels p.x p.y (width : Int) c) (insert p visited)
        (⟨p.x, p.y - 1⟩ :: ⟨p.x, p.y + 1⟩ :: ⟨p.x - 1, p.y⟩ :: ⟨p.x + 1, p.y⟩ :: rest)
        (writes ++ [p]) := by
  simp [floodFillLoop, h, hb, hm]

lemma floodFill2Loop_le (width height dpr : Nat) (t : OColor) (c : Color) :
    ∀ (remaining iterations : Nat) (pixels : List Nat) (visited : Finset Point)
      (stack : List Point),
      (floodFill2Loop width height dpr t c remaining iterations pixels visited
        stack).2 ≤ iterations + remaining := by
  intro remaining
  induction remaining with
  | zero =>
    intro iterations pixels visited stack
    cases stack <;> simp [floodFill2Loop]
  | succ n ih =>
    intro iterations pixels visited stack
    cases stack with
    | nil => simp [floodFill2Loop]
    | cons p rest =>
      show (floodFill2Loop width height dpr t c (n + 1) iterations pixels visited
        (p :: rest)).2 ≤ iterations + (n + 1)
      rw [floodFill2Loop]
      split
      · exact le_trans (ih (iterations + 1) pixels visited rest) (by omega)
      · split
        · exact le_trans (ih (iterations + 1) pixels visited rest) (by omega)
        · split
          · exact le_trans (ih (iterations + 1) pixels visited rest) (by omega)
          · exact le_trans (ih (iterations + 1) _ _ _) (by omega)

/-! ## Claim theorems: flood fill (short-circuit, bounds, cap) and hex parsing -/

/-- C2: the second `floodFill` variant executes at most
`width * height * dpr * dpr` loop iterations — the number of distinct valid
coordinates of the `width*dpr` by `height*dpr` backing buffer — for every
buffer, seed and fill color; the traversal halts by construction because
the remaining budget `maxIterations - iterations` strictly decreases. -/
theorem floodFill2_iteration_cap (width height dpr : Nat) (pixels : List Nat)
    (startX startY : Int) (fillColor : Color) :
    (floodFill2 width height dpr pixels startX startY fillColor).2 ≤
      width * height * dpr * dpr := by
  rw [floodFill2]
  split
  · exact Nat.zero_le _
  · exact le_trans (floodFill2Loop_le width height dpr _ fillColor _ 0 pixels ∅ _)
      (by omega)

/-- C5: when the color read at the seed already equals the fill color
(per-channel, alpha included), `floodFill` returns immediately: the buffer
is byte-for-byte unchanged, no pixel is written (`pixelsChanged = 0`), and
the history save at the end of the function is not reached. -/
theorem floodFill_noop_matching (width height : Nat) (pixels : List Nat)
    (startX startY : Int) (c : Color)
    (h : colorsMatch (getPixelColor pixels startX startY (width : Int)) (toOColor c)
      = true) :
    floodFill width height pixels startX startY c =
      { pixels := pixels, writes := [], savedToHistory := false } := by
  simp [floodFill, h]

/-- C5 (witness): a 1-by-1 buffer holding `(9,9,9,255)` filled with the
same color. -/
theorem floodFill_noop_matching_witness :
    colorsMatch (getPixelColor [9, 9, 9, 255] 0 0 ((1 : Nat) : Int))
      (toOColor ⟨9, 9, 9, 255⟩) = true ∧
    floodFill 1 1 [9, 9, 9, 255] 0 0 ⟨9, 9, 9, 255⟩ =
      { pixels := [9, 9, 9, 255], writes := [], savedToHistory := false } :=
  ⟨by decide, floodFill_noop_matching 1 1 [9, 9, 9, 255] 0 0 ⟨9, 9, 9, 255⟩ (by decide)⟩

/-- C8 (counterexample): seed `(5,0)` is outside a 2-by-2 buffer, yet
`floodFill` raises no error and runs to normal completion — it even
reaches the `saveToHistory()` call (`savedToHistory = true`) — with the
buffer unchanged, contradicting "fails with an OutOfBounds error before
mutating anything, rather than completing normally". -/
theorem floodFill_oob_cex :
    ¬ inBounds 2 2 ⟨5, 0⟩ ∧
    floodFill 2 2 (List.replicate 16 255) 5 0 ⟨0, 0, 0, 255⟩ =
      { pixels := List.replicate 16 255, writes := [],
        savedToHistory := true } := by
  refine ⟨by decide, by decide⟩

/-- C8 (amended): for every out-of-bounds seed, `floodFill` performs no
bounds pre-check and raises no error: it completes normally with the
buffer unchanged and zero pixels written — the seed is discarded by the
in-loop bounds test (and if the junk color read at the seed happens to
equal the fill color, by the Step-1 short-circuit). -/
theorem floodFill_oob (width height : Nat) (pixels : List Nat) (startX startY : Int)
    (c : Color) (h : ¬ inBounds width height ⟨startX, startY⟩) :
    (floodFill width height pixels startX startY c).pixels = pixels ∧
    (floodFill width height pixels startX startY c).writes = [] := by
  rw [floodFill]
  by_cases hg : colorsMatch (getPixelColor pixels startX startY (width : Int))
      (toOColor c) = true
  · simp [hg]
  · have hgf : colorsMatch (getPixelColor pixels startX startY (width : Int))
        (toOColor c) = false := by
      simpa using hg
    have hb : (⟨startX, startY⟩ : Point).x < 0 ∨
        (⟨startX, startY⟩ : Point).x ≥ (width : Int) ∨
        (⟨startX, startY⟩ : Point).y < 0 ∨
        (⟨startX, startY⟩ : Point).y ≥ (height : Int) := by
      simp only [inBounds, not_and_or, not_le, not_lt] at h
      simpa using h
    rw [if_neg (by simp [hgf])]
    rw [floodFillLoop_oob width height _ c (4 * (width * height)) pixels ∅
      ⟨startX, startY⟩ [] [] (by simp) hb]
    rw [floodFillLoop_nil]
    exact ⟨rfl, rfl⟩

/-- C8 (witness): the amended theorem at seed `(-1, 3)` on a 2-by-2 buffer. -/
theorem floodFill_oob_witness :
    ¬ inBounds 2 2 ⟨-1, 3⟩ ∧
    ((floodFill 2 2 (List.replicate 16 255) (-1) 3 ⟨7, 7, 7, 255⟩).pixels =
        List.replicate 16 255 ∧
      (floodFill 2 2 (List.replicate 16 255) (-1) 3 ⟨7, 7, 7, 255⟩).writes = []) :=
  ⟨by decide, floodFill_oob 2 2 (List.replicate 16 255) (-1) 3 ⟨7, 7, 7, 255⟩ (by decide)⟩

/-- C9 (counterexample): `"not-a-color"` fails the strict hex match, yet
`hexToRgb` returns opaque black `{0,0,0,255}` — a silent default, not a
parse error — contradicting the claim that malformed input yields a
`ParseError` result and black is never silently substituted. -/
theorem hexToRgb_cex :
    hexExec "not-a-color" = none ∧
    hexToRgb "not-a-color" = { r := 0, g := 0, b := 0, a := 255 } := by
  refine ⟨by decide, by decide⟩

/-- C9 (amended): on every input rejected by the
`/^#?([a-f\d]{2}){3}$/i` match, `hexToRgb` silently falls back to opaque
black `{0,0,0,255}`; the source has no error channel for color parsing. -/
theorem hexToRgb_fallback (s : String) (h : hexExec s = none) :
    hexToRgb s = { r := 0, g := 0, b := 0, a := 255 } := by
  rw [hexToRgb, h]

/-- C9 (witness): the fallback theorem applied to `"xyz"`. -/
theorem hexToRgb_fallback_witness :
    hexExec "xyz" = none ∧
    hexToRgb "xyz" = { r := 0, g := 0, b := 0, a := 255 } :=
  ⟨by decide, hexToRgb_fallback "xyz" (by decide)⟩

/-! ## Byte-level lemmas for the pixel buffer -/

lemma length_byteSet (pixels : List Nat) (i : Int) (v : Nat) :
    (byteSet pixels i v).length = pixels.length := by
  unfold byteSet
  split <;> simp

lemma length_setPixelColor (pixels : List Nat) (x y width : Int) (c : Color) :
    (setPixelColor pixels x y width c).length = pixels.length := by
  simp only [setPixelColor, length_byteSet]

lemma byteGet_byteSet_ne (pixels : List Nat) (i j : Int) (v : Nat) (h : i ≠ j) :
    byteGet (byteSet pixels i v) j = byteGet pixels j := by
  unfold byteGet byteSet
  by_cases hi : 0 ≤ i
  · by_cases hj : 0 ≤ j
    · simp only [if_pos hi, if_pos hj]
      rw [List.getElem?_set_ne (by omega)]
    · simp [hj]
  · simp [hi]

lemma byteGet_byteSet_self (pixels : List Nat) (i : Int) (v : Nat) (h0 : 0 ≤ i)
    (hlt : i.toNat < pixels.length) :
    byteGet (byteSet pixels i v) i = some (min v 255) := by
  unfold byteGet byteSet
  simp only [if_pos h0]
  exact List.getElem?_set_self hlt

lemma byteGet_setPixelColor_ne (pixels : List Nat) (x y width : Int) (c : Color)
    (j : Int) (h : ∀ i : Int, 0 ≤ i → i < 4 → (y * width + x) * 4 + i ≠ j) :
    byteGet (setPixelColor pixels x y width c) j = byteGet pixels j := by
  simp only [setPixelColor]
  rw [byteGet_byteSet_ne _ _ _ _ (h 3 (by omega) (by omega)),
    byteGet_byteSet_ne _ _ _ _ (h 2 (by omega) (by omega)),
    byteGet_byteSet_ne _ _ _ _ (h 1 (by omega) (by omega)),
    byteGet_byteSet_ne _ _ _ _ (by have := h 0 (by omega) (by omega); omega)]

/-- Distinct in-bounds coordinates have distinct flat pixel keys. -/
lemma pixKey_inj (width height : Nat) (p q : Point) (hp : inBounds width height p)
    (hq : inBounds width height q)
    (hkey : p.y * (width : Int) + p.x = q.y * (width : Int) + q.x) : p = q := by
  obtain ⟨hp1, hp2, hp3, hp4⟩ := hp
  obtain ⟨hq1, hq2, hq3, hq4⟩ := hq
  have hy : p.y = q.y := by
    by_contra hne
    rcases lt_or_gt_of_ne hne with hlt | hgt
    · have h1 : p.y + 1 ≤ q.y := hlt
      have h2 : (p.y + 1) * (width : Int) ≤ q.y * width :=
        mul_le_mul_of_nonneg_right h1 (by positivity)
      have h3 : p.y * (width : Int) + width ≤ q.y * width := by
        have : (p.y + 1) * (width : Int) = p.y * width + width := by ring
        omega
      omega
    · have h1 : q.y + 1 ≤ p.y := hgt
      have h2 : (q.y + 1) * (width : Int) ≤ p.y * width :=
        mul_le_mul_of_nonneg_right h1 (by positivity)
      have h3 : q.y * (width : Int) + width ≤ p.y * width := by
        have : (q.y + 1) * (width : Int) = q.y * width + width := by ring
        omega
      omega
  have hx : p.x = q.x := by
    rw [hy] at hkey
    omega
  cases p
  cases q
  simp_all

lemma getPixelColor_setPixelColor_ne (width height : Nat) (pixels : List Nat)
    (p q : Point) (c : Color) (hp : inBounds width height p)
    (hq : inBounds width height q) (hne : p ≠ q) :
    getPixelColor (setPixelColor pixels p.x p.y (width : Int) c) q.x q.y
        (width : Int) =
      getPixelColor pixels q.x q.y (width : Int) := by
  have hk : p.y * (width : Int) + p.x ≠ q.y * (width : Int) + q.x := by
    intro hkey
    exact hne (pixKey_inj width height p q hp hq hkey)
  simp only [getPixelColor]
  have hskip : ∀ j : Int, 0 ≤ j → j < 4 →
      byteGet (setPixelColor pixels p.x p.y (width : Int) c)
          ((q.y * (width : Int) + q.x) * 4 + j) =
        byteGet pixels ((q.y * (width : Int) + q.x) * 4 + j) := by
    intro j hj0 hj4
    exact byteGet_setPixelColor_ne pixels p.x p.y (width : Int) c _
      (fun i hi0 hi4 => by omega)
  have h0 := hskip 0 (by omega) (by omega)
  have h1 := hskip 1 (by omega) (by omega)
  have h2 := hskip 2 (by omega) (by omega)
  have h3 := hskip 3 (by omega) (by omega)
  rw [show (q.y * (width : Int) + q.x) * 4 + 0 = (q.y * (width : Int) + q.x) * 4 by
    omega] at h0
  rw [h0, h1, h2, h3]

/-- The byte range of an in-bounds coordinate lies inside a well-formed
buffer of `4 * width * height` bytes. -/
lemma pixIdx_bound (width height : Nat) (p : Point) (h : inBounds width height p) :
    0 ≤ (p.y * (width : Int) + p.x) * 4 ∧
    (p.y * (width : Int) + p.x) * 4 + 3 < 4 * ((width * height : Nat) : Int) := by
  obtain ⟨h1, h2, h3, h4⟩ := h
  have hynn : 0 ≤ p.y * (width : Int) := mul_nonneg h3 (by positivity)
  have hyub : (p.y * (width : Int) + p.x) + 1 ≤ ((width * height : Nat) : Int) := by
    have step : p.y * (width : Int) ≤ ((height : Int) - 1) * width :=
      mul_le_mul_of_nonneg_right (by omega) (by positivity)
    have expand : ((height : Int) - 1) * width = ((width * height : Nat) : Int) - width := by
      push_cast
      ring
    omega
  omega

lemma getPixelColor_setPixelColor_self (width height : Nat) (pixels : List Nat)
    (p : Point) (c : Color) (hp : inBounds width height p)
    (hlen : pixels.length = 4 * (width * height)) :
    getPixelColor (setPixelColor pixels p.x p.y (width : Int) c) p.x p.y
        (width : Int) = toOColor (clampColor c) := by
  obtain ⟨hnn, hub⟩ := pixIdx_bound width height p hp
  have hlenI : (pixels.length : Int) = 4 * ((width * height : Nat) : Int) := by
    rw [hlen]
    push_cast
    ring
  have hlen1 := length_byteSet pixels ((p.y * (width : Int) + p.x) * 4) c.r
  have hlen2 := length_byteSet (byteSet pixels ((p.y * (width : Int) + p.x) * 4) c.r)
    ((p.y * (width : Int) + p.x) * 4 + 1) c.g
  have hlen3 := length_byteSet (byteSet (byteSet pixels
      ((p.y * (width : Int) + p.x) * 4) c.r) ((p.y * (width : Int) + p.x) * 4 + 1) c.g)
    ((p.y * (width : Int) + p.x) * 4 + 2) c.b
  have e0 : byteGet (byteSet (byteSet (byteSet (byteSet pixels
      ((p.y * (width : Int) + p.x) * 4) c.r)
      ((p.y * (width : Int) + p.x) * 4 + 1) c.g)
      ((p.y * (width : Int) + p.x) * 4 + 2) c.b)
      ((p.y * (width : Int) + p.x) * 4 + 3) c.a)
      ((p.y * (width : Int) + p.x) * 4) = some (min c.r 255) := by
    rw [byteGet_byteSet_ne _ _ _ _ (by omega), byteGet_byteSet_ne _ _ _ _ (by omega),
      byteGet_byteSet_ne _ _ _ _ (by omega),
      byteGet_byteSet_self _ _ _ (by omega) (by omega)]
  have e1 : byteGet (byteSet (byteSet (byteSet (byteSet pixels
      ((p.y * (width : Int) + p.x) * 4) c.r)
      ((p.y * (width : Int) + p.x) * 4 + 1) c.g)
      ((p.y * (width : Int) + p.x) * 4 + 2) c.b)
      ((p.y * (width : Int) + p.x) * 4 + 3) c.a)
      ((p.y * (width : Int) + p.x) * 4 + 1) = some (min c.g 255) := by
    rw [byteGet_byteSet_ne _ _ _ _ (by omega), byteGet_byteSet_ne _ _ _ _ (by omega),
      byteGet_byteSet_self _ _ _ (by omega) (by rw [hlen1]; omega)]
  have e2 : byteGet (byteSet (byteSet (byteSet (byteSet pixels
      ((p.y * (width : Int) + p.x) * 4) c.r)
      ((p.y * (width : Int) + p.x) * 4 + 1) c.g)
      ((p.y * (width : Int) + p.x) * 4 + 2) c.b)
      ((p.y * (width : Int) + p.x) * 4 + 3) c.a)
      ((p.y * (width : Int) + p.x) * 4 + 2) = some (min c.b 255) := by
    rw [byteGet_byteSet_ne _ _ _ _ (by omega),
      byteGet_byteSet_self _ _ _ (by omega) (by rw [hlen2, hlen1]; omega)]
  have e3 : byteGet (byteSet (byteSet (byteSet (byteSet pixels
      ((p.y * (width : Int) + p.x) * 4) c.r)
      ((p.y * (width : Int) + p.x) * 4 + 1) c.g)
      ((p.y * (width : Int) + p.x) * 4 + 2) c.b)
      ((p.y * (width : Int) + p.x) * 4 + 3) c.a)
      ((p.y * (width : Int) + p.x) * 4 + 3) = some (min c.a 255) := by
    rw [byteGet_byteSet_self _ _ _ (by omega) (by rw [hlen3, hlen2, hlen1]; omega)]
  simp only [getPixelColor, setPixelColor, toOColor, clampColor]
  rw [e0, e1, e2, e3]

/-! ## The in-bounds coordinate set and the termination measure -/

lemma mem_inBoundsFinset (width height : Nat) (p : Point) :
    p ∈ inBoundsFinset width height ↔ inBounds width height p := by
  unfold inBoundsFinset inBounds
  simp only [Finset.mem_image, Finset.mem_product, Finset.mem_Icc, Prod.exists]
  constructor
  · rintro ⟨a, b, ⟨⟨ha1, ha2⟩, hb1, hb2⟩, rfl⟩
    refine ⟨ha1, ?_, hb1, ?_⟩
    · show a < (width : Int)
      omega
    · show b < (height : Int)
      omega
  · rintro ⟨h1, h2, h3, h4⟩
    exact ⟨p.x, p.y, ⟨⟨h1, by omega⟩, h3, by omega⟩, rfl⟩

lemma card_inBoundsFinset (width height : Nat) :
    (inBoundsFinset width height).card = width * height := by
  unfold inBoundsFinset
  rw [Finset.card_image_of_injective _ (fun a b hab => ?_), Finset.card_product]
  · rw [Int.card_Icc, Int.card_Icc]
    have h1 : ((width : Int) - 1 + 1 - 0).toNat = width := by omega
    have h2 : ((height : Int) - 1 + 1 - 0).toNat = height := by omega
    rw [h1, h2]
  · cases a
    cases b
    simpa [Point.mk.injEq, Prod.ext_iff] using hab

lemma matchCnt_le (width height : Nat) (t : OColor) (pixels : List Nat)
    (visited : Finset Point) :
    matchCnt width height t pixels visited ≤ width * height := by
  unfold matchCnt
  calc ((inBoundsFinset width height).filter _).card
      ≤ (inBoundsFinset width height).card := Finset.card_filter_le _ _
    _ = width * height := card_inBoundsFinset width height

/-- Processing a pixel removes exactly it from the matching-unvisited set:
the write changes no other coordinate's color and the insertion excludes
only it. -/
lemma matchCnt_proc (width height : Nat) (t : OColor) (pixels : List Nat)
    (visited : Finset Point) (p : Point) (c : Color)
    (hp : inBounds width height p) (hnv : p ∉ visited)
    (hm : colorsMatch (getPixelColor pixels p.x p.y (width : Int)) t = true) :
    matchCnt width height t (setPixelColor pixels p.x p.y (width : Int) c)
        (insert p visited) =
      matchCnt width height t pixels visited - 1 ∧
    1 ≤ matchCnt width height t pixels visited := by
  have hmem : p ∈ (inBoundsFinset width height).filter
      (fun q => q ∉ visited ∧
        colorsMatch (getPixelColor pixels q.x q.y (width : Int)) t = true) := by
    rw [Finset.mem_filter, mem_inBoundsFinset]
    exact ⟨hp, hnv, hm⟩
  have hset : (inBoundsFinset width height).filter
      (fun q => q ∉ insert p visited ∧
        colorsMatch (getPixelColor
          (setPixelColor pixels p.x p.y (width : Int) c) q.x q.y (width : Int)) t
          = true) =
      ((inBoundsFinset width height).filter
        (fun q => q ∉ visited ∧
          colorsMatch (getPixelColor pixels q.x q.y (width : Int)) t = true)).erase
        p := by
    ext q
    rw [Finset.mem_erase, Finset.mem_filter, Finset.mem_filter, Finset.mem_insert,
      mem_inBoundsFinset]
    constructor
    · rintro ⟨hqB, hor, hq2⟩
      push_neg at hor
      obtain ⟨hqp, hqv⟩ := hor
      rw [getPixelColor_setPixelColor_ne width height pixels p q c hp hqB
        (Ne.symm hqp)] at hq2
      exact ⟨hqp, hqB, hqv, hq2⟩
    · rintro ⟨hqp, hqB, hqv, hq2⟩
      refine ⟨hqB, ?_, ?_⟩
      · push_neg
        exact ⟨hqp, hqv⟩
      · rw [getPixelColor_setPixelColor_ne width height pixels p q c hp hqB
          (Ne.symm hqp)]
        exact hq2
  constructor
  · unfold matchCnt
    rw [hset, Finset.card_erase_of_mem hmem]
  · unfold matchCnt
    exact Finset.card_pos.mpr ⟨p, hmem⟩

/-! ## Soundness of the traversal -/

lemma colorsMatch_refl (c : OColor) : colorsMatch c c = true := by
  simp [colorsMatch]

/-- Popping a stack entry that the loop skips preserves the invariant,
provided the entry is already visited, or is neither the seed nor an
in-bounds continuation of the region. -/
lemma FillInv_skip (width height : Nat) (orig : List Nat) (t : OColor) (seed : Point)
    (fill : Color) (pixels : List Nat) (visited : Finset Point) (p : Point)
    (rest : List Point)
    (hInv : FillInv width height orig t seed fill pixels visited (p :: rest))
    (hcase : p ∈ visited ∨ (p ≠ seed ∧
      ¬(inBounds width height p ∧
        colorsMatch (getPixelColor orig p.x p.y (width : Int)) t = true))) :
    FillInv width height orig t seed fill pixels visited rest := by
  obtain ⟨hlen, hvisR, hvisB, hpix, hseed, hclosed, hstack⟩ := hInv
  refine ⟨hlen, hvisR, hvisB, hpix, ?_, ?_, ?_⟩
  · rcases hseed with h | h
    · exact Or.inl h
    · rcases List.mem_cons.mp h with heq | h2
      · rcases hcase with hc | ⟨hne, _⟩
        · exact Or.inl (heq ▸ hc)
        · exact absurd heq.symm hne
      · exact Or.inr h2
  · intro v hv q hq hqB hqM
    rcases hclosed v hv q hq hqB hqM with h | h
    · exact Or.inl h
    · rcases List.mem_cons.mp h with heq | h2
      · rcases hcase with hc | ⟨_, hnc⟩
        · exact Or.inl (heq ▸ hc)
        · exact absurd ⟨heq ▸ hqB, heq ▸ hqM⟩ hnc
      · exact Or.inr h2
  · intro q hq
    exact hstack q (List.mem_cons_of_mem p hq)

/-- Processing an unvisited, in-bounds, matching pop preserves the
invariant for the recoloured buffer, the extended visited set and the
stack with the four neighbours pushed. -/
lemma FillInv_proc (width height : Nat) (orig : List Nat) (t : OColor) (seed : Point)
    (fill : Color) (pixels : List Nat) (visited : Finset Point) (p : Point)
    (rest : List Point)
    (horig : orig.length = 4 * (width * height))
    (hseedB : inBounds width height seed)
    (hseedM : colorsMatch (getPixelColor orig seed.x seed.y (width : Int)) t = true)
    (hInv : FillInv width height orig t seed fill pixels visited (p :: rest))
    (hv : p ∉ visited) (hpB : inBounds width height p)
    (hm : colorsMatch (getPixelColor pixels p.x p.y (width : Int)) t = true) :
    FillInv width height orig t seed fill
      (setPixelColor pixels p.x p.y (width : Int) fill) (insert p visited)
      (⟨p.x, p.y - 1⟩ :: ⟨p.x, p.y + 1⟩ :: ⟨p.x - 1, p.y⟩ :: ⟨p.x + 1, p.y⟩ :: rest) := by
  obtain ⟨hlen, hvisR, hvisB, hpix, hseed, hclosed, hstack⟩ := hInv
  have hop : colorsMatch (getPixelColor orig p.x p.y (width : Int)) t = true := by
    have hq := hpix p hpB
    rw [if_neg hv] at hq
    rw [← hq]
    exact hm
  have hReachp : Reach width height orig t seed p := by
    rcases hstack p (List.mem_cons_self p rest) with heq | ⟨v, hvmem, hpn⟩
    · rw [heq]
      exact Reach.base hseedB hseedM
    · exact Reach.step (hvisR v hvmem) hpn hpB hop
  have hmemsub : ∀ q : Point, q ∈ rest →
      q ∈ (⟨p.x, p.y - 1⟩ :: ⟨p.x, p.y + 1⟩ :: ⟨p.x - 1, p.y⟩ :: ⟨p.x + 1, p.y⟩ ::
        rest : List Point) := by
    intro q hq
    simp [hq]
  have hnbrmem : ∀ q : Point, q ∈ nbrs p →
      q ∈ (⟨p.x, p.y - 1⟩ :: ⟨p.x, p.y + 1⟩ :: ⟨p.x - 1, p.y⟩ :: ⟨p.x + 1, p.y⟩ ::
        rest : List Point) := by
    intro q hq
    simp only [nbrs, List.mem_cons, List.mem_singleton] at hq
    rcases hq with h | h | h | h | h
    · simp [h]
    · simp [h]
    · simp [h]
    · simp [h]
    · simp at h
  refine ⟨?_, ?_, ?_, ?_, ?_, ?_, ?_⟩
  · rw [length_setPixelColor]
    exact hlen
  · intro q hq
    rcases Finset.mem_insert.mp hq with heq | hq2
    · exact heq ▸ hReachp
    · exact hvisR q hq2
  · intro q hq
    rcases Finset.mem_insert.mp hq with heq | hq2
    · exact heq ▸ hpB
    · exact hvisB q hq2
  · intro q hqB
    by_cases hqp : q = p
    · subst hqp
      rw [if_pos (Finset.mem_insert_self q visited)]
      exact getPixelColor_setPixelColor_self width height pixels q fill hqB
        (hlen.trans horig)
    · rw [getPixelColor_setPixelColor_ne width height pixels p q fill hpB hqB
        (Ne.symm hqp)]
      rw [hpix q hqB]
      by_cases hqv : q ∈ visited
      · rw [if_pos hqv, if_pos (Finset.mem_insert_of_mem hqv)]
      · rw [if_neg hqv, if_neg (by
          intro hc
          rcases Finset.mem_insert.mp hc with h | h
          · exact hqp h
          · exact hqv h)]
  · rcases hseed with h | h
    · exact Or.inl (Finset.mem_insert_of_mem h)
    · rcases List.mem_cons.mp h with heq | h2
      · exact Or.inl (heq ▸ Finset.mem_insert_self p visited)
      · exact Or.inr (hmemsub seed h2)
  · intro v hvmem q hq hqB hqM
    rcases Finset.mem_insert.mp hvmem with heq | hv2
    · subst heq
      exact Or.inr (hnbrmem q hq)
    · rcases hclosed v hv2 q hq hqB hqM with h | h
      · exact Or.inl (Finset.mem_insert_of_mem h)
      · rcases List.mem_cons.mp h with heq | h2
        · exact Or.inl (heq ▸ Finset.mem_insert_self p visited)
        · exact Or.inr (hmemsub q h2)
  · intro q hq
    simp only [List.mem_cons] at hq
    rcases hq with h | h | h | h | h
    · exact Or.inr ⟨p, Finset.mem_insert_self p visited, by simp [nbrs, h]⟩
    · exact Or.inr ⟨p, Finset.mem_insert_self p visited, by simp [nbrs, h]⟩
    · exact Or.inr ⟨p, Finset.mem_insert_self p visited, by simp [nbrs, h]⟩
    · exact Or.inr ⟨p, Finset.mem_insert_self p visited, by simp [nbrs, h]⟩
    · rcases hstack q (List.mem_cons_of_mem p h) with heq | ⟨v, hvmem, hqn⟩
      · exact Or.inl heq
      · exact Or.inr ⟨v, Finset.mem_insert_of_mem hvmem, hqn⟩

/-- Main loop soundness: starting from a state satisfying the invariant,
with fuel at least the measure `4 * matchCnt + stack.length`, the loop
runs the stack dry and its result still satisfies the invariant (with an
empty stack). -/
lemma floodFillLoop_sound (width height : Nat) (orig : List Nat) (t : OColor)
    (seed : Point) (fill : Color)
    (horig : orig.length = 4 * (width * height))
    (hseedB : inBounds width height seed)
    (hseedM : colorsMatch (getPixelColor orig seed.x seed.y (width : Int)) t
      = true) :
    ∀ (fuel : Nat) (pixels : List Nat) (visited : Finset Point)
      (stack : List Point) (writes : List Point),
      FillInv width height orig t seed fill pixels visited stack →
      4 * matchCnt width height t pixels visited + stack.length ≤ fuel →
      FillInv width height orig t seed fill
        (floodFillLoop width height t fill fuel pixels visited stack writes).pixels
        (floodFillLoop width height t fill fuel pixels visited stack writes).visited
        [] := by
  intro fuel
  induction fuel with
  | zero =>
    intro pixels visited stack writes hInv hfuel
    cases stack with
    | nil =>
      rw [floodFillLoop_nil]
      exact hInv
    | cons p rest =>
      simp only [List.length_cons] at hfuel
      omega
  | succ n ih =>
    intro pixels visited stack writes hInv hfuel
    cases stack with
    | nil =>
      rw [floodFillLoop_nil]
      exact hInv
    | cons p rest =>
      simp only [List.length_cons] at hfuel
      by_cases hv : p ∈ visited
      · rw [floodFillLoop_visited width height t fill n pixels visited p rest writes hv]
        exact ih pixels visited rest writes
          (FillInv_skip width height orig t seed fill pixels visited p rest hInv
            (Or.inl hv))
          (by omega)
      · by_cases hb : p.x < 0 ∨ p.x ≥ (width : Int) ∨ p.y < 0 ∨ p.y ≥ (height : Int)
        · rw [floodFillLoop_oob width height t fill n pixels visited p rest writes
            hv hb]
          refine ih pixels visited rest writes
            (FillInv_skip width height orig t seed fill pixels visited p rest hInv
              (Or.inr ⟨?_, ?_⟩))
            (by omega)
          · intro heq
            obtain ⟨h1, h2, h3, h4⟩ := hseedB
            rw [heq] at hb
            rcases hb with h | h | h | h <;> omega
          · intro ⟨hpB, _⟩
            obtain ⟨h1, h2, h3, h4⟩ := hpB
            rcases hb with h | h | h | h <;> omega
        · have hpB : inBounds width height p := by
            push_neg at hb
            exact ⟨by omega, by omega, by omega, by omega⟩
          by_cases hm : colorsMatch (getPixelColor pixels p.x p.y (width : Int)) t
              = true
          · rw [floodFillLoop_proc width height t fill n pixels visited p rest writes
              hv hb hm]
            obtain ⟨hceq, hcge⟩ :=
              matchCnt_proc width height t pixels visited p fill hpB hv hm
            refine ih _ _ _ _
              (FillInv_proc width height orig t seed fill pixels visited p rest
                horig hseedB hseedM hInv hv hpB hm)
              ?_
            simp only [List.length_cons]
            rw [hceq]
            omega
          · have hmf : colorsMatch (getPixelColor pixels p.x p.y (width : Int)) t
                = false := by
              simpa using hm
            rw [floodFillLoop_nomatch width height t fill n pixels visited p rest
              writes hv hb hmf]
            have horigf : colorsMatch (getPixelColor orig p.x p.y (width : Int)) t
                = false := by
              have hq := hInv.hpix p hpB
              rw [if_neg hv] at hq
              rw [← hq]
              exact hmf
            refine ih pixels visited rest writes
              (FillInv_skip width height orig t seed fill pixels visited p rest hInv
                (Or.inr ⟨?_, ?_⟩))
              (by omega)
            · intro heq
              rw [heq, hseedM] at horigf
              simp at horigf
            · intro ⟨_, hpm⟩
              rw [horigf] at hpm
              simp at hpm

/-- Once the stack is empty, the visited set is exactly the seed's
4-connected region. -/
lemma FillInv_final (width height : Nat) (orig : List Nat) (t : OColor) (seed : Point)
    (fill : Color) (pixels : List Nat) (visited : Finset Point)
    (hInv : FillInv width height orig t seed fill pixels visited []) (p : Point) :
    Reach width height orig t seed p ↔ p ∈ visited := by
  constructor
  · intro hr
    induction hr with
    | base hb hm =>
      rcases hInv.hseed with h | h
      · exact h
      · simp at h
    | step hr hn hb hm ih =>
      rcases hInv.hclosed _ ih _ hn hb hm with h | h
      · exact h
      · simp at h
  · exact fun h => hInv.hvisR p h

/-- C1: for a well-formed buffer, an in-bounds seed and a fill color whose
channels are bytes and which differs from the color read at the seed, the
fill recolors exactly the seed's 4-connected region of target-colored
pixels: the buffer keeps its length, every in-bounds pixel of the region
reads back as the fill color, and every other in-bounds pixel reads back
byte-for-byte as before. -/
theorem floodFill_fills_component (width height : Nat) (pixels : List Nat)
    (startX startY : Int) (c : Color)
    (hlen : pixels.length = 4 * (width * height))
    (hsb : inBounds width height ⟨startX, startY⟩)
    (hbyte : c.r ≤ 255 ∧ c.g ≤ 255 ∧ c.b ≤ 255 ∧ c.a ≤ 255)
    (hne : colorsMatch (getPixelColor pixels startX startY (width : Int))
      (toOColor c) = false) :
    (floodFill width height pixels startX startY c).pixels.length = pixels.length ∧
    ∀ p : Point, inBounds width height p →
      (Reach width height pixels
          (getPixelColor pixels startX startY (width : Int)) ⟨startX, startY⟩ p →
        getPixelColor (floodFill width height pixels startX startY c).pixels
          p.x p.y (width : Int) = toOColor c) ∧
      (¬ Reach width height pixels
          (getPixelColor pixels startX startY (width : Int)) ⟨startX, startY⟩ p →
        getPixelColor (floodFill width height pixels startX startY c).pixels
          p.x p.y (width : Int) = getPixelColor pixels p.x p.y (width : Int)) := by
  have hclamp : clampColor c = c := by
    obtain ⟨h1, h2, h3, h4⟩ := hbyte
    unfold clampColor
    cases c
    simp_all [Nat.min_eq_left]
  have hff : floodFill width height pixels startX startY c =
      ⟨(floodFillLoop width height
          (getPixelColor pixels startX startY (width : Int)) c
          (4 * (width * height) + 1) pixels ∅ [⟨startX, startY⟩] []).pixels,
        (floodFillLoop width height
          (getPixelColor pixels startX startY (width : Int)) c
          (4 * (width * height) + 1) pixels ∅ [⟨startX, startY⟩] []).writes,
        true⟩ := by
    rw [floodFill]
    rw [if_neg (by simp [hne])]
  have hInv0 : FillInv width height pixels
      (getPixelColor pixels startX startY (width : Int)) ⟨startX, startY⟩ c
      pixels ∅ [⟨startX, startY⟩] := by
    refine ⟨rfl, ?_, ?_, ?_, ?_, ?_, ?_⟩
    · intro p hp
      simp at hp
    · intro p hp
      simp at hp
    · intro p hp
      rw [if_neg (by simp)]
    · exact Or.inr (List.mem_cons_self _ _)
    · intro v hv
      simp at hv
    · intro q hq
      rcases List.mem_cons.mp hq with heq | h2
      · exact Or.inl heq
      · simp at h2
  have hseedM : colorsMatch
      (getPixelColor pixels (⟨startX, startY⟩ : Point).x
        (⟨startX, startY⟩ : Point).y (width : Int))
      (getPixelColor pixels startX startY (width : Int)) = true :=
    colorsMatch_refl _
  have hsound := floodFillLoop_sound width height pixels
    (getPixelColor pixels startX startY (width : Int)) ⟨startX, startY⟩ c
    hlen hsb hseedM (4 * (width * height) + 1) pixels ∅ [⟨startX, startY⟩] []
    hInv0
    (by
      have := matchCnt_le width height
        (getPixelColor pixels startX startY (width : Int)) pixels ∅
      simp only [List.length_cons, List.length_nil]
      omega)
  have hiff := FillInv_final width height pixels
    (getPixelColor pixels startX startY (width : Int)) ⟨startX, startY⟩ c
    _ _ hsound
  rw [hff]
  refine ⟨?_, ?_⟩
  · exact hsound.hlen
  · intro p hp
    have hchar := hsound.hpix p hp
    constructor
    · intro hr
      rw [hchar, if_pos ((hiff p).mp hr), hclamp]
    · intro hr
      rw [hchar, if_neg (fun hmem => hr ((hiff p).mpr hmem))]

/-- C1 (witness): the theorem applied to a 1-by-1 black buffer filled
with opaque red. -/
theorem floodFill_fills_component_witness :
    ([0, 0, 0, 255] : List Nat).length = 4 * (1 * 1) ∧
    inBounds 1 1 ⟨0, 0⟩ ∧
    ((255 : Nat) ≤ 255 ∧ (0 : Nat) ≤ 255 ∧ (0 : Nat) ≤ 255 ∧ (255 : Nat) ≤ 255) ∧
    colorsMatch (getPixelColor [0, 0, 0, 255] 0 0 ((1 : Nat) : Int))
      (toOColor ⟨255, 0, 0, 255⟩) = false ∧
    ((floodFill 1 1 [0, 0, 0, 255] 0 0 ⟨255, 0, 0, 255⟩).pixels.length =
        ([0, 0, 0, 255] : List Nat).length ∧
      ∀ p : Point, inBounds 1 1 p →
        (Reach 1 1 [0, 0, 0, 255]
            (getPixelColor [0, 0, 0, 255] 0 0 ((1 : Nat) : Int)) ⟨0, 0⟩ p →
          getPixelColor (floodFill 1 1 [0, 0, 0, 255] 0 0 ⟨255, 0, 0, 255⟩).pixels
            p.x p.y ((1 : Nat) : Int) = toOColor ⟨255, 0, 0, 255⟩) ∧
        (¬ Reach 1 1 [0, 0, 0, 255]
            (getPixelColor [0, 0, 0, 255] 0 0 ((1 : Nat) : Int)) ⟨0, 0⟩ p →
          getPixelColor (floodFill 1 1 [0, 0, 0, 255] 0 0 ⟨255, 0, 0, 255⟩).pixels
            p.x p.y ((1 : Nat) : Int) =
            getPixelColor [0, 0, 0, 255] p.x p.y ((1 : Nat) : Int))) :=
  ⟨by decide, by decide, by decide, by decide,
    floodFill_fills_component 1 1 [0, 0, 0, 255] 0 0 ⟨255, 0, 0, 255⟩
      (by decide) (by decide) (by decide) (by decide)⟩

/-- Write-tracking invariant of the loop: the written coordinates are
exactly the coordinates the loop itself marked visited, each coordinate is
written at most once, and all visited coordinates are in bounds. -/
lemma floodFillLoop_writes (width height : Nat) (t : OColor) (fill : Color) :
    ∀ (fuel : Nat) (pixels : List Nat) (visited : Finset Point) (stack : List Point)
      (writes : List Point),
      (∀ w : Point, w ∈ writes ↔ w ∈ visited) → writes.Nodup →
      (∀ p ∈ visited, inBounds width height p) →
      ((∀ w : Point,
          w ∈ (floodFillLoop width height t fill fuel pixels visited stack
            writes).writes ↔
          w ∈ (floodFillLoop width height t fill fuel pixels visited stack
            writes).visited) ∧
        (floodFillLoop width height t fill fuel pixels visited stack
          writes).writes.Nodup ∧
        (∀ p ∈ (floodFillLoop width height t fill fuel pixels visited stack
          writes).visited, inBounds width height p)) := by
  intro fuel
  induction fuel with
  | zero =>
    intro pixels visited stack writes hmem hnd hbnd
    cases stack with
    | nil =>
      rw [floodFillLoop_nil]
      exact ⟨hmem, hnd, hbnd⟩
    | cons p rest =>
      show (∀ w : Point, w ∈ (LoopResult.mk pixels visited writes).writes ↔
          w ∈ (LoopResult.mk pixels visited writes).visited) ∧ _ ∧ _
      exact ⟨hmem, hnd, hbnd⟩
  | succ n ih =>
    intro pixels visited stack writes hmem hnd hbnd
    cases stack with
    | nil =>
      rw [floodFillLoop_nil]
      exact ⟨hmem, hnd, hbnd⟩
    | cons p rest =>
      by_cases hv : p ∈ visited
      · rw [floodFillLoop_visited width height t fill n pixels visited p rest writes hv]
        exact ih pixels visited rest writes hmem hnd hbnd
      · by_cases hb : p.x < 0 ∨ p.x ≥ (width : Int) ∨ p.y < 0 ∨ p.y ≥ (height : Int)
        · rw [floodFillLoop_oob width height t fill n pixels visited p rest writes
            hv hb]
          exact ih pixels visited rest writes hmem hnd hbnd
        · have hpB : inBounds width height p := by
            push_neg at hb
            exact ⟨by omega, by omega, by omega, by omega⟩
          by_cases hm : colorsMatch (getPixelColor pixels p.x p.y (width : Int)) t
              = true
          · rw [floodFillLoop_proc width height t fill n pixels visited p rest writes
              hv hb hm]
            refine ih _ _ _ _ ?_ ?_ ?_
            · intro w
              rw [List.mem_append, List.mem_singleton, hmem w, Finset.mem_insert]
              tauto
            · have hpw : p ∉ writes := fun hc => hv ((hmem p).mp hc)
              simp [List.nodup_append, hnd, hpw]
            · intro q hq
              rcases Finset.mem_insert.mp hq with heq | hq2
              · exact heq ▸ hpB
              · exact hbnd q hq2
          · have hmf : colorsMatch (getPixelColor pixels p.x p.y (width : Int)) t
                = false := by
              simpa using hm
            rw [floodFillLoop_nomatch width height t fill n pixels visited p rest
              writes hv hb hmf]
            exact ih pixels visited rest writes hmem hnd hbnd

/-- C10: during one fill call with the fill color differing from the color
read at the seed, each coordinate is written at most once (`writes` has no
duplicate), only in-bounds coordinates are written, and the total number
of pixel writes is at most `width * height`. -/
theorem floodFill_writes_once (width height : Nat) (pixels : List Nat)
    (startX startY : Int) (c : Color)
    (hne : colorsMatch (getPixelColor pixels startX startY (width : Int))
      (toOColor c) = false) :
    (floodFill width height pixels startX startY c).writes.Nodup ∧
    (∀ w ∈ (floodFill width height pixels startX startY c).writes,
      inBounds width height w) ∧
    (floodFill width height pixels startX startY c).writes.length ≤
      width * height := by
  have hff : (floodFill width height pixels startX startY c).writes =
      (floodFillLoop width height
        (getPixelColor pixels startX startY (width : Int)) c
        (4 * (width * height) + 1) pixels ∅ [⟨startX, startY⟩] []).writes := by
    rw [floodFill]
    rw [if_neg (by simp [hne])]
  obtain ⟨hmem, hnd, hbnd⟩ := floodFillLoop_writes width height
    (getPixelColor pixels startX startY (width : Int)) c
    (4 * (width * height) + 1) pixels ∅ [⟨startX, startY⟩] []
    (by simp) (List.nodup_nil) (by simp)
  rw [hff]
  have hwB : ∀ w ∈ (floodFillLoop width height
      (getPixelColor pixels startX startY (width : Int)) c
      (4 * (width * height) + 1) pixels ∅ [⟨startX, startY⟩] []).writes,
      inBounds width height w :=
    fun w hw => hbnd w ((hmem w).mp hw)
  refine ⟨hnd, hwB, ?_⟩
  rw [← List.toFinset_card_of_nodup hnd]
  have hsub : (floodFillLoop width height
      (getPixelColor pixels startX startY (width : Int)) c
      (4 * (width * height) + 1) pixels ∅ [⟨startX, startY⟩] []).writes.toFinset ⊆
      inBoundsFinset width height := by
    intro w hw
    rw [mem_inBoundsFinset]
    exact hwB w (List.mem_toFinset.mp hw)
  calc _ ≤ (inBoundsFinset width height).card := Finset.card_le_card hsub
    _ = width * height := card_inBoundsFinset width height

/-- C10 (witness): the bound applied to a 2-by-2 white buffer filled with
black from the corner. -/
theorem floodFill_writes_once_witness :
    colorsMatch (getPixelColor (List.replicate 16 255) 0 0 ((2 : Nat) : Int))
      (toOColor ⟨0, 0, 0, 255⟩) = false ∧
    ((floodFill 2 2 (List.replicate 16 255) 0 0 ⟨0, 0, 0, 255⟩).writes.Nodup ∧
      (∀ w ∈ (floodFill 2 2 (List.replicate 16 255) 0 0 ⟨0, 0, 0, 255⟩).writes,
        inBounds 2 2 w) ∧
      (floodFill 2 2 (List.replicate 16 255) 0 0 ⟨0, 0, 0, 255⟩).writes.length ≤
        2 * 2) :=
  ⟨by decide, floodFill_writes_once 2 2 (List.replicate 16 255) 0 0 ⟨0, 0, 0, 255⟩
    (by decide)⟩
